import Mathlib

set_option maxRecDepth 40000

/- Verification development for the live audio transcriber
   (src/backend/live_audio_transcriber.cpp), shallowly embedded in Lean.

   Audio samples and spectral magnitudes are modelled as rationals.  The
   discrete Fourier transform itself is an external collaborator (FFTW), so a
   spectral frame is modelled as an opaque magnitude function `Spectrum`
   (bin index ↦ |fftData[bin]|) supplied as a parameter; the frequency-to-note
   map, which uses the transcendental log2, is modelled over the reals. -/

/-- Constant SAMPLE_RATE = 48000 (line 26 of the source). -/
def sampleRate : ℕ := 48000

/-- Constant FFT_SIZE = 8192 (line 27), the analysis window length. -/
def fftSize : ℕ := 8192

/-- Constant HOP_SIZE = FFT_SIZE / 2 (line 28). -/
def hopSize : ℕ := fftSize / 2

/-- Constant NOISE_GATE_THRESHOLD = 0.005f (line 32). -/
def noiseGateThreshold : ℚ := 5 / 1000

/-- Constant SPECTRAL_MAGNITUDE_THRESHOLD = 5.0 (line 33). -/
def spectralMagnitudeThreshold : ℚ := 5

/-- Constant MIN_FREQUENCY = 80.0 (line 34). -/
def minFrequency : ℚ := 80

/-- Constant MAX_FREQUENCY = 2000.0 (line 35). -/
def maxFrequency : ℚ := 2000

/-- Constant CONSECUTIVE_DETECTIONS_REQUIRED = 1 (line 36). -/
def consecutiveDetectionsRequired : ℤ := 1

/-- Constant CONSECUTIVE_SILENCE_REQUIRED = 1 (line 37). -/
def consecutiveSilenceRequired : ℤ := 1

/-- Function passesNoiseGate (lines 42-51): scans the window for the largest
absolute sample value, starting from 0, and passes iff it exceeds the gate. -/
def passesNoiseGate (audioData : List ℚ) : Bool :=
  let maxAmplitude :=
    audioData.foldl (fun m sample => if |sample| > m then |sample| else m) 0
  decide (maxAmplitude > noiseGateThreshold)

/-- Specification-side peak amplitude max(|sample|): maximum of the absolute
sample values (0 for an empty window), as worded in the spec's noise-gate
contract. -/
def peakAmplitude (audioData : List ℚ) : ℚ :=
  (audioData.map (fun s => |s|)).foldl max 0

/-- A magnitude spectrum of one analysis window: bin index ↦ |fftData[bin]|.
The DFT is computed by the external FFTW collaborator (lines 98-110), so it is
modelled as an opaque parameter. -/
abbrev Spectrum : Type := ℕ → ℚ

/-- Model of the linear peak scan (lines 132-138): fold over the candidate bin
indices carrying (maxMagnitude, maxIndex), initialised to (0, -1), updating
whenever the bin magnitude strictly exceeds the running maximum. -/
def scanLoop (sp : Spectrum) : List ℕ → ℚ × ℤ → ℚ × ℤ
  | [], acc => acc
  | i :: rest, acc => scanLoop sp rest (if sp i > acc.1 then (sp i, (i : ℤ)) else acc)

/-- Bin-to-frequency conversion (line 141): frequency = bin · SAMPLE_RATE / FFT_SIZE. -/
def binFrequency (i : ℤ) : ℚ := (i : ℚ) * (sampleRate : ℚ) / (fftSize : ℚ)

/-- Value minIndex = max(1, int(MIN_FREQUENCY · FFT_SIZE / SAMPLE_RATE))
(lines 125 and 129); the C++ cast truncates a positive double, i.e. floor. -/
def minIndexI : ℤ := max 1 ⌊(minFrequency * (fftSize : ℚ)) / (sampleRate : ℚ)⌋

/-- Value maxIndexLimit = min(fftData.size() / 2, int(MAX_FREQUENCY · FFT_SIZE /
SAMPLE_RATE)) (lines 126 and 130); fftData.size() = FFT_SIZE = 8192. -/
def maxIndexLimitI : ℤ := min ((fftSize : ℤ) / 2) ⌊(maxFrequency * (fftSize : ℚ)) / (sampleRate : ℚ)⌋

/-- The bin indices visited by the scan loop `for (int i = minIndex;
i < maxIndexLimit; ++i)` (line 132). -/
def scanRange : List ℕ := List.range' minIndexI.toNat (maxIndexLimitI - minIndexI).toNat

/-- Function detectFundamentalFrequency (lines 112-148): noise gate, linear
peak scan over the in-range bins, magnitude floor, bin-to-frequency
conversion, and the final frequency-band re-validation. -/
def detectFundamentalFrequency (audioData : List ℚ) (sp : Spectrum) : ℚ :=
  if passesNoiseGate audioData then
    let acc := scanLoop sp scanRange (0, -1)
    if acc.2 > 0 ∧ acc.1 > spectralMagnitudeThreshold then
      let frequency := binFrequency acc.2
      if minFrequency ≤ frequency ∧ frequency ≤ maxFrequency then frequency else 0
    else 0
  else 0

/-- Sharpened spelling of a natural note letter. -/
def sharpName (letter : String) : String := letter ++ "#"

/-- The fixed semitone name table (line 57): C, C sharp, D, D sharp, E, F,
F sharp, G, G sharp, A, A sharp, B. -/
def noteNames : List String :=
  ["C", sharpName "C", "D", sharpName "D", "E", "F", sharpName "F",
   "G", sharpName "G", "A", sharpName "A", "B"]

/-- Function getNoteName (lines 53-61): sentinel "N/A" outside [1,127],
otherwise noteNames[n % 12] ++ toString (n / 12 - 1). -/
def getNoteName (noteNumber : ℤ) : String :=
  if noteNumber ≤ 0 ∨ noteNumber > 127 then "N/A"
  else noteNames.getD (noteNumber % 12).toNat "" ++ toString (noteNumber / 12 - 1)

/-- Function frequencyToMidiNote (lines 63-68): 0 for non-positive frequency,
otherwise round(69 + 12 · log2(frequency / 440)). -/
noncomputable def frequencyToMidiNote (frequency : ℝ) : ℤ :=
  if frequency ≤ 0 then 0 else round ((69 : ℝ) + 12 * Real.logb 2 (frequency / 440))

/-- The mutable temporal-smoothing globals of the callback (lines 153, 163-166):
lastMidiNote, consecutiveDetections, consecutiveSilences, pendingMidiNote,
pendingFrequency. -/
structure SmoothState where
  lastMidiNote : ℤ
  consecutiveDetections : ℤ
  consecutiveSilences : ℤ
  pendingMidiNote : ℤ
  pendingFrequency : ℚ
deriving DecidableEq

/-- Initial values of the smoothing globals (all zero). -/
def initialSmoothState : SmoothState :=
  { lastMidiNote := 0, consecutiveDetections := 0, consecutiveSilences := 0,
    pendingMidiNote := 0, pendingFrequency := 0 }

/-- A MIDI channel-voice message written by the callback: noteOn n models
Pm_Message(0x90, n, 100) and noteOff n models Pm_Message(0x90, n, 0). -/
inductive MidiEvent where
  | noteOn (note : ℤ)
  | noteOff (note : ℤ)
deriving DecidableEq

/-- True exactly on note-on events. -/
def MidiEvent.isNoteOn : MidiEvent → Bool
  | .noteOn _ => true
  | .noteOff _ => false

/-- A recorded detection-log entry (struct Detection, lines 18-22). -/
structure Detection where
  timeSec : ℚ
  frequencyHz : ℚ
  midiNote : ℤ
deriving DecidableEq

/-- The temporal smoothing logic of one window (lines 196-236 of paCallback),
given the detected fundamental frequency, the mapped MIDI note and the window's
timestamp.  Returns the updated smoothing state, the MIDI messages written (in
write order) and the detections pushed onto the log. -/
def smoothingStep (fundamentalFrequency : ℚ) (newMidiNote : ℤ) (timestampSec : ℚ)
    (s : SmoothState) : SmoothState × List MidiEvent × List Detection :=
  if newMidiNote > 0 ∧ fundamentalFrequency > 200 then
    let s1 :=
      if newMidiNote = s.pendingMidiNote then
        { s with consecutiveDetections := s.consecutiveDetections + 1 }
      else
        { s with consecutiveDetections := 1, pendingMidiNote := newMidiNote,
                 pendingFrequency := fundamentalFrequency }
    let s2 := { s1 with consecutiveSilences := 0 }
    if s2.consecutiveDetections ≥ consecutiveDetectionsRequired ∧ newMidiNote ≠ s2.lastMidiNote then
      ({ s2 with lastMidiNote := newMidiNote },
       (if s2.lastMidiNote > 0 then [MidiEvent.noteOff s2.lastMidiNote] else [])
         ++ [MidiEvent.noteOn newMidiNote],
       [{ timeSec := timestampSec, frequencyHz := fundamentalFrequency, midiNote := newMidiNote }])
    else (s2, [], [])
  else
    let s1 := { s with consecutiveSilences := s.consecutiveSilences + 1,
                       consecutiveDetections := 0 }
    if s1.consecutiveSilences ≥ consecutiveSilenceRequired ∧ s1.lastMidiNote > 0 then
      ({ s1 with lastMidiNote := 0 }, [MidiEvent.noteOff s1.lastMidiNote], [])
    else (s1, [], [])

/-- The timestamp computed for the window at cumulative frame offset fp
(line 194): (framesProcessed + FFT_SIZE / 2.0) / SAMPLE_RATE. -/
def windowTimestamp (fp : ℕ) : ℚ := ((fp : ℚ) + (fftSize : ℚ) / 2) / (sampleRate : ℚ)

/-- Analysis of one window (lines 191-236): pitch detection, note mapping and
temporal smoothing.  The note mapping is passed as the parameter f2n because
the source composes detectFundamentalFrequency with frequencyToMidiNote, which
is real-valued; all theorems below hold for every f2n, in particular for the
source's frequencyToMidiNote. -/
def processWindow (f2n : ℚ → ℤ) (magSpec : List ℚ → Spectrum) (fp : ℕ) (w : List ℚ)
    (s : SmoothState) : SmoothState × List MidiEvent × List Detection :=
  let fundamentalFrequency := detectFundamentalFrequency w (magSpec w)
  let newMidiNote := f2n fundamentalFrequency
  smoothingStep fundamentalFrequency newMidiNote (windowTimestamp fp) s

/-- The per-window processing loop of paCallback applied to a list of analysis
windows, threading the smoothing state and advancing the cumulative frame
offset by hopSize per window (lines 187-243); the MIDI messages and recorded
detections of all windows are concatenated in order. -/
def runWindows (f2n : ℚ → ℤ) (magSpec : List ℚ → Spectrum) :
    ℕ → SmoothState → List (List ℚ) → SmoothState × List MidiEvent × List Detection
  | _, s, [] => (s, [], [])
  | fp, s, w :: ws =>
    let r := processWindow f2n magSpec fp w s
    let rest := runWindows f2n magSpec (fp + hopSize) r.1 ws
    (rest.1, r.2.1 ++ rest.2.1, r.2.2 ++ rest.2.2)

/-- The overlap-buffer drain loop of paCallback (lines 187-189 and 238-243):
while at least FFT_SIZE samples are buffered, copy out the first FFT_SIZE
samples as a window tagged with the cumulative frame offset, then drop the
oldest HOP_SIZE samples and advance the offset by HOP_SIZE.  Returns the
produced (offset, window) pairs, the remaining buffer and the final offset. -/
def drainWindows (buf : List ℚ) (fp : ℕ) : List (ℕ × List ℚ) × List ℚ × ℕ :=
  if h : fftSize ≤ buf.length then
    let w := buf.take fftSize
    let rest := drainWindows (buf.drop hopSize) (fp + hopSize)
    ((fp, w) :: rest.1, rest.2)
  else ([], buf, fp)
termination_by buf.length
decreasing_by
  simp only [List.length_drop]
  simp only [fftSize] at h
  simp only [hopSize, fftSize]
  omega

/-- Digit character for a decimal digit d, i.e. the character with code 48 + d. -/
def digitChar (d : ℕ) : Char := Char.ofNat (48 + d)

/-- Decimal digit characters of a natural number, most significant first; the
text the stream insertion operator produces for a nonnegative integral value
(line 404 of the source writes the fields with operator<<). -/
def natToChars (n : ℕ) : List Char :=
  if h : n < 10 then [digitChar n] else natToChars (n / 10) ++ [digitChar (n % 10)]
termination_by n
decreasing_by exact Nat.div_lt_self (by omega) (by omega)

/-- Decimal text of an integer: a leading minus sign (code 45) when negative. -/
def intToChars (i : ℤ) : List Char :=
  if i < 0 then Char.ofNat 45 :: natToChars (-i).toNat else natToChars i.toNat

/-- Number of digits printed after the decimal point, before trailing-zero
trimming, by the default ostream double formatting (defaultfloat, precision 6)
in its fixed-point regime: 5 minus the decimal exponent of the value, found by
comparison against the decades of the regime. -/
def fracDigits (q : ℚ) : ℕ :=
  if 100000 ≤ q then 0 else if 10000 ≤ q then 1 else if 1000 ≤ q then 2
  else if 100 ≤ q then 3 else if 10 ≤ q then 4 else if 1 ≤ q then 5
  else if 1/10 ≤ q then 6 else if 1/100 ≤ q then 7 else if 1/1000 ≤ q then 8
  else 9

/-- Remove trailing zero characters; the default double formatting trims the
trailing zeros of the fraction. -/
def trimTrailingZeros (cs : List Char) : List Char :=
  (cs.reverse.dropWhile (fun c => c = '0')).reverse

/-- The fraction digits of the fixed-point text: the fraction value printed
with exactly d digits (leading zeros included), trailing zeros trimmed. -/
def fracChars (fp d : ℕ) : List Char :=
  trimTrailingZeros (List.replicate (d - (natToChars fp).length) '0' ++ natToChars fp)

/-- Default ostream text of a nonnegative double value (defaultfloat,
precision 6) in its fixed-point regime, modelled over the embedding's
rationals: the value is rounded to 6 significant digits — fracDigits q digits
after the point — and printed in fixed notation with the trailing zeros of the
fraction trimmed ("0" for zero).  The scientific-notation regime of the
default format (values below 0.0001 or rounding to 10^6 and above) is outside
the fixedRegime predicate under which every theorem below is stated; ties of
the decimal rounding are broken upward. -/
def doubleToCharsNN (q : ℚ) : List Char :=
  if q = 0 then ['0']
  else
    let d := fracDigits q
    let m := (round (q * 10 ^ d)).toNat
    if m % 10 ^ d = 0 then natToChars (m / 10 ^ d)
    else natToChars (m / 10 ^ d) ++ '.' :: fracChars (m % 10 ^ d) d

/-- Number text written for a double field of the log line (line 404): the
default ostream double formatting, with a leading minus sign for negative
values. -/
def doubleToChars (q : ℚ) : List Char :=
  if q < 0 then '-' :: doubleToCharsNN (-q) else doubleToCharsNN q

/-- The value the lossy precision-6 default formatting preserves of a field:
q rounded to fracDigits q fractional digits, i.e. to 6 significant digits in
the fixed-point regime (ties broken upward, matching doubleToCharsNN). -/
def roundDefault6 (q : ℚ) : ℚ :=
  if q = 0 then 0 else (round (q * 10 ^ fracDigits q) : ℚ) / 10 ^ fracDigits q

/-- The fixed-point regime of the default double formatting: zero, or at
least 0.0001 and below 999999.5 (so the rounded value stays below 10^6);
outside it the default format switches to scientific notation, which the
model does not cover. -/
def fixedRegime (q : ℚ) : Prop := q = 0 ∨ (1/10000 ≤ q ∧ q < 1999999/2)

/-- A detection with its double fields replaced by what the lossy precision-6
log formatting preserves of them; the integer note field is exact. -/
def roundDetection6 (d : Detection) : Detection :=
  { timeSec := roundDefault6 d.timeSec, frequencyHz := roundDefault6 d.frequencyHz,
    midiNote := d.midiNote }

/-- One log line "timestampSeconds,frequencyHz,noteNumber" (line 404):
outputFile << timeSec << "," << frequencyHz << "," << midiNote, the double
fields in the default ostream formatting and the int field in exact decimal. -/
def serializeLine (d : Detection) : List Char :=
  doubleToChars d.timeSec ++ ',' :: (doubleToChars d.frequencyHz ++ ',' :: intToChars d.midiNote)

/-- The detection log file contents (lines 403-405): one newline-terminated
line per recorded detection, in event order. -/
def serializeDetections : List Detection → List Char
  | [] => []
  | d :: ds => serializeLine d ++ '\n' :: serializeDetections ds

/-- Modelled from the spec: the repository has no reader for the detection
log, only the writer (main, lines 400-411); the spec's round-trip property
"re-reading it reproduces the same triples" needs a reader, modelled here
starting with splitting a character stream at a separator character. -/
def splitSep (sep : Char) : List Char → List (List Char)
  | [] => [[]]
  | c :: rest =>
    let r := splitSep sep rest
    if c = sep then [] :: r else (c :: r.headD []) :: r.tail

/-- True on decimal digit characters (codes 48 to 57). -/
def isDigitChar (c : Char) : Bool := decide (48 ≤ c.toNat ∧ c.toNat ≤ 57)

/-- Value of a list of decimal digit characters, most significant first. -/
def digitsToNat (cs : List Char) : ℕ := cs.foldl (fun a c => 10 * a + (c.toNat - 48)) 0

/-- Modelled from the spec: reader for a nonnegative decimal integer field. -/
def parseNat (cs : List Char) : Option ℕ :=
  if cs ≠ [] ∧ cs.all isDigitChar then some (digitsToNat cs) else none

/-- Modelled from the spec: reader for a decimal integer field with an
optional leading minus sign. -/
def parseInt (cs : List Char) : Option ℤ :=
  match cs with
  | [] => none
  | c :: rest =>
    if c = '-' then (fun m => -(m : ℤ)) <$> parseNat rest
    else (fun m => (m : ℤ)) <$> parseNat (c :: rest)

/-- Modelled from the spec: reader for a nonnegative fixed-notation decimal
field: an integer part, optionally followed by a point and fraction digits. -/
def parseUnsignedDouble (cs : List Char) : Option ℚ :=
  match splitSep '.' cs with
  | [a] => (fun n => (n : ℚ)) <$> parseNat a
  | [a, b] =>
    match parseNat a, parseNat b with
    | some n1, some n2 => some ((n1 : ℚ) + (n2 : ℚ) / 10 ^ b.length)
    | _, _ => none
  | _ => none

/-- Modelled from the spec: reader for a fixed-notation decimal field with an
optional leading minus sign. -/
def parseDouble (cs : List Char) : Option ℚ :=
  match cs with
  | [] => none
  | c :: rest =>
    if c = '-' then (fun q => -q) <$> parseUnsignedDouble rest
    else parseUnsignedDouble (c :: rest)

/-- Modelled from the spec: reader for one comma-separated log line. -/
def parseLine (cs : List Char) : Option Detection :=
  match splitSep ',' cs with
  | [a, b, c] =>
    match parseDouble a, parseDouble b, parseInt c with
    | some t, some f, some n => some { timeSec := t, frequencyHz := f, midiNote := n }
    | _, _, _ => none
  | _ => none

/-- Modelled from the spec: reader for a list of log lines. -/
def parseLines : List (List Char) → Option (List Detection)
  | [] => some []
  | l :: ls =>
    match parseLine l, parseLines ls with
    | some d, some ds => some (d :: ds)
    | _, _ => none

/-- Modelled from the spec: reader for the whole detection log, splitting at
newlines; the trailing newline of the last line yields one empty trailing
fragment, which is dropped. -/
def parseDetections (cs : List Char) : Option (List Detection) :=
  parseLines ((splitSep '\n' cs).dropLast)

/-- Well-formedness of a MIDI message trace relative to the currently active
note a: a note-on may occur only when no note is active (so two note-ons can
never occur without an intervening note-off) and makes its positive note
active; a note-off may occur only when a note is active and must name exactly
that note, deactivating it. -/
inductive Alternates : ℤ → List MidiEvent → Prop where
  | nil : ∀ a, Alternates a []
  | stepOn : ∀ (n : ℤ) (rest : List MidiEvent), 0 < n → Alternates n rest →
      Alternates 0 (MidiEvent.noteOn n :: rest)
  | stepOff : ∀ (a : ℤ) (rest : List MidiEvent), 0 < a → Alternates 0 rest →
      Alternates a (MidiEvent.noteOff a :: rest)

/-- Helper: the noise-gate fold computes the specification-side peak amplitude. -/
theorem noiseGate_fold_eq (audioData : List ℚ) :
    audioData.foldl (fun m sample => if |sample| > m then |sample| else m) 0
      = peakAmplitude audioData := by
  unfold peakAmplitude
  rw [List.foldl_map]
  congr 1
  funext m s
  split_ifs with h
  · exact (max_eq_right h.le).symm
  · exact (max_eq_left (not_lt.mp h)).symm

/-- Claim C2: a window whose peak absolute amplitude is at most the noise-gate
threshold 0.005 fails the gate (and conversely), and the detector then reports
frequency 0 for every possible spectrum, i.e. without consulting the spectrum. -/
theorem noiseGate_absolute (w : List ℚ) :
    (passesNoiseGate w = false ↔ peakAmplitude w ≤ noiseGateThreshold) ∧
    (peakAmplitude w ≤ noiseGateThreshold →
      ∀ sp : Spectrum, detectFundamentalFrequency w sp = 0) := by
  have hg : passesNoiseGate w = false ↔ peakAmplitude w ≤ noiseGateThreshold := by
    unfold passesNoiseGate
    rw [noiseGate_fold_eq]
    simp [not_lt]
  refine ⟨hg, fun h sp => ?_⟩
  unfold detectFundamentalFrequency
  rw [hg.mpr h]
  simp

/-- Witness for C2 at the concrete window [1/1000]. -/
theorem noiseGate_absolute_witness :
    peakAmplitude [1/1000] ≤ noiseGateThreshold ∧
      detectFundamentalFrequency [1/1000] (fun _ => 100) = 0 := by
  have hp : peakAmplitude [(1 : ℚ)/1000] ≤ noiseGateThreshold := by
    norm_num [peakAmplitude, noiseGateThreshold, abs_of_nonneg]
  exact ⟨hp, (noiseGate_absolute [1/1000]).2 hp (fun _ => 100)⟩

/-- Claim C6: frequencyToMidiNote equals round(69 + 12·log2(f/440)) on every
positive frequency and 0 on every non-positive one; in particular it maps
440 Hz to 69 and 0 Hz to 0. -/
theorem frequencyToMidiNote_spec :
    (∀ f : ℝ, 0 < f →
        frequencyToMidiNote f = round ((69 : ℝ) + 12 * Real.logb 2 (f / 440))) ∧
    (∀ f : ℝ, f ≤ 0 → frequencyToMidiNote f = 0) ∧
    frequencyToMidiNote 440 = 69 ∧ frequencyToMidiNote 0 = 0 := by
  refine ⟨fun f hf => ?_, fun f hf => ?_, ?_, ?_⟩
  · unfold frequencyToMidiNote
    rw [if_neg (not_le.mpr hf)]
  · unfold frequencyToMidiNote
    rw [if_pos hf]
  · unfold frequencyToMidiNote
    rw [if_neg (by norm_num), show (440 : ℝ)/440 = 1 by norm_num, Real.logb_one]
    norm_num [round_eq]
  · unfold frequencyToMidiNote
    rw [if_pos le_rfl]

/-- Witness for C6 at the concrete frequencies 440 and -5. -/
theorem frequencyToMidiNote_spec_witness :
    frequencyToMidiNote 440 = round ((69 : ℝ) + 12 * Real.logb 2 (440 / 440)) ∧
      frequencyToMidiNote (-5) = 0 :=
  ⟨frequencyToMidiNote_spec.1 440 (by norm_num),
   frequencyToMidiNote_spec.2.1 (-5) (by norm_num)⟩

/-- Claim C7: getNoteName is the table lookup names[n % 12] followed by the
decimal octave n / 12 - 1 on [1,127], and the sentinel "N/A" outside [1,127];
in particular 69 maps to "A4" and 0 and 128 map to the sentinel. -/
theorem getNoteName_spec :
    (∀ n : ℤ, 1 ≤ n → n ≤ 127 →
        getNoteName n = noteNames.getD (n % 12).toNat "" ++ toString (n / 12 - 1)) ∧
    (∀ n : ℤ, n < 1 ∨ 127 < n → getNoteName n = "N/A") ∧
    getNoteName 69 = "A4" ∧ getNoteName 0 = "N/A" ∧ getNoteName 128 = "N/A" := by
  refine ⟨fun n h1 h2 => ?_, fun n h => ?_, ?_, ?_, ?_⟩
  · unfold getNoteName
    rw [if_neg (by omega)]
  · unfold getNoteName
    rw [if_pos (by omega)]
  · decide
  · decide
  · decide

/-- Witness for C7 at the concrete note numbers 69 and 0. -/
theorem getNoteName_spec_witness :
    getNoteName 69 = noteNames.getD ((69 : ℤ) % 12).toNat "" ++ toString ((69 : ℤ) / 12 - 1) ∧
      getNoteName 0 = "N/A" :=
  ⟨getNoteName_spec.1 69 (by norm_num) (by norm_num),
   getNoteName_spec.2.1 0 (Or.inl (by norm_num))⟩

/-- Helper: unfolding of the drain loop when a full window is buffered. -/
theorem drainWindows_of_ge {buf : List ℚ} (fp : ℕ) (h : fftSize ≤ buf.length) :
    drainWindows buf fp =
      ((fp, buf.take fftSize) :: (drainWindows (buf.drop hopSize) (fp + hopSize)).1,
       (drainWindows (buf.drop hopSize) (fp + hopSize)).2) := by
  rw [drainWindows, dif_pos h]

/-- Helper: unfolding of the drain loop when fewer than a window's samples remain. -/
theorem drainWindows_of_lt {buf : List ℚ} (fp : ℕ) (h : buf.length < fftSize) :
    drainWindows buf fp = ([], buf, fp) := by
  rw [drainWindows, dif_neg (by omega)]

/-- Claim C4: pushing windowLength + hopLength samples into an empty overlap
buffer and draining yields exactly the two windows [(0, first 8192 samples),
(4096, the 8192 samples starting at offset 4096)]; and in general, whenever at
least windowLength samples are buffered, the window produced is the first
windowLength buffered samples, and the loop continues on the buffer advanced
by exactly hopLength samples with the frame counter advanced by hopLength. -/
theorem overlapBuffer_windows :
    (∀ xs : List ℚ, xs.length = fftSize + hopSize →
      (drainWindows xs 0).1 =
        [(0, xs.take fftSize), (hopSize, (xs.drop hopSize).take fftSize)]) ∧
    (∀ (buf : List ℚ) (fp : ℕ), fftSize ≤ buf.length →
      drainWindows buf fp =
        ((fp, buf.take fftSize) :: (drainWindows (buf.drop hopSize) (fp + hopSize)).1,
         (drainWindows (buf.drop hopSize) (fp + hopSize)).2)) := by
  constructor
  · intro xs hlen
    have hs : hopSize = 4096 := by norm_num [hopSize, fftSize]
    have hf : fftSize = 8192 := by norm_num [fftSize]
    have h1 : fftSize ≤ xs.length := by omega
    have h2 : fftSize ≤ (xs.drop hopSize).length := by
      rw [List.length_drop]; omega
    have h3 : ((xs.drop hopSize).drop hopSize).length < fftSize := by
      rw [List.length_drop, List.length_drop]; omega
    rw [drainWindows_of_ge 0 h1, drainWindows_of_ge (0 + hopSize) h2,
        drainWindows_of_lt ((0 + hopSize) + hopSize) h3]
    simp only [Nat.zero_add]
  · intro buf fp h
    exact drainWindows_of_ge fp h

/-- Witness for C4 at the concrete 12288-sample buffer of zeros. -/
theorem overlapBuffer_windows_witness :
    (drainWindows (List.replicate 12288 (0 : ℚ)) 0).1 =
      [(0, (List.replicate 12288 (0 : ℚ)).take fftSize),
       (hopSize, ((List.replicate 12288 (0 : ℚ)).drop hopSize).take fftSize)] ∧
    drainWindows (List.replicate 8192 (0 : ℚ)) 0 =
      (((0 : ℕ), (List.replicate 8192 (0 : ℚ)).take fftSize) ::
         (drainWindows ((List.replicate 8192 (0 : ℚ)).drop hopSize) (0 + hopSize)).1,
       (drainWindows ((List.replicate 8192 (0 : ℚ)).drop hopSize) (0 + hopSize)).2) :=
  ⟨overlapBuffer_windows.1 (List.replicate 12288 0)
      (by simp only [List.length_replicate]; norm_num [fftSize, hopSize]),
   overlapBuffer_windows.2 (List.replicate 8192 0)
      0 (by simp only [List.length_replicate]; norm_num [fftSize])⟩

/-- Helper: the offsets of the drained windows advance from fp in steps of
exactly hopSize. -/
theorem drainWindows_offsets (xs : List ℚ) (fp : ℕ) :
    (drainWindows xs fp).1.map Prod.fst
      = List.range' fp (drainWindows xs fp).1.length hopSize := by
  by_cases h : fftSize ≤ xs.length
  · rw [drainWindows_of_ge fp h]
    have ih := drainWindows_offsets (xs.drop hopSize) (fp + hopSize)
    simp only [List.map_cons, List.length_cons]
    rw [ih]
    rfl
  · rw [drainWindows_of_lt fp (by omega)]
    rfl
termination_by xs.length
decreasing_by
  rw [List.length_drop]
  have hf : fftSize = 8192 := by norm_num [fftSize]
  have hs : hopSize = 4096 := by norm_num [hopSize, fftSize]
  omega

/-- Helper: every detection recorded by one smoothing step carries the
timestamp computed for that step. -/
theorem smoothingStep_dets_time (f : ℚ) (n : ℤ) (t : ℚ) (s : SmoothState) :
    ((smoothingStep f n t s).2.2.all (fun d => decide (d.timeSec = t))) = true := by
  unfold smoothingStep
  by_cases h1 : n > 0 ∧ f > 200
  · rw [if_pos h1]
    by_cases h2 : n = s.pendingMidiNote
    · rw [if_pos h2]
      dsimp only
      split_ifs <;> simp
    · rw [if_neg h2]
      dsimp only
      split_ifs <;> simp
  · rw [if_neg h1]
    dsimp only
    split_ifs <;> simp

/-- Claim C5: the cumulative frame counter grows by exactly hopLength per
drained window, so the k-th drained window carries offset fp + k·hopLength;
and every detection emitted while processing the window at cumulative offset
fp carries the center-time timestamp (fp + windowLength/2) / sampleRate. -/
theorem frameOffsets_and_timestamps :
    (∀ (xs : List ℚ) (fp : ℕ),
      (drainWindows xs fp).1.map Prod.fst
        = List.range' fp (drainWindows xs fp).1.length hopSize) ∧
    (∀ (f2n : ℚ → ℤ) (magSpec : List ℚ → Spectrum) (fp : ℕ) (w : List ℚ) (s : SmoothState),
      ((processWindow f2n magSpec fp w s).2.2.all
        (fun d => decide (d.timeSec = ((fp : ℚ) + (fftSize : ℚ) / 2) / (sampleRate : ℚ)))) = true) := by
  refine ⟨drainWindows_offsets, fun f2n magSpec fp w s => ?_⟩
  unfold processWindow windowTimestamp
  exact smoothingStep_dets_time _ _ _ _

/-- Helper: one smoothing step always leaves at least one of the two
consecutive counters at zero (the detection branch clears the silence counter,
the silence branch clears the detection counter). -/
theorem smoothingStep_counters (f : ℚ) (n : ℤ) (t : ℚ) (s : SmoothState) :
    (smoothingStep f n t s).1.consecutiveDetections = 0 ∨
      (smoothingStep f n t s).1.consecutiveSilences = 0 := by
  unfold smoothingStep
  by_cases h1 : n > 0 ∧ f > 200
  · rw [if_pos h1]
    by_cases h2 : n = s.pendingMidiNote
    · rw [if_pos h2]
      dsimp only
      split_ifs <;> simp
    · rw [if_neg h2]
      dsimp only
      split_ifs <;> simp
  · rw [if_neg h1]
    dsimp only
    split_ifs <;> simp

/-- Helper: the counter disjunction is preserved along any run of windows. -/
theorem runWindows_counters (f2n : ℚ → ℤ) (magSpec : List ℚ → Spectrum)
    (ws : List (List ℚ)) :
    ∀ (fp : ℕ) (s : SmoothState),
      s.consecutiveDetections = 0 ∨ s.consecutiveSilences = 0 →
      ((runWindows f2n magSpec fp s ws).1.consecutiveDetections = 0 ∨
       (runWindows f2n magSpec fp s ws).1.consecutiveSilences = 0) := by
  induction ws with
  | nil => intro fp s h; simpa [runWindows] using h
  | cons w ws ih =>
    intro fp s _
    simp only [runWindows]
    exact ih _ _ (smoothingStep_counters _ _ _ _)

/-- Claim C8: starting from the initial state, after processing any sequence
of windows at most one of consecutiveDetections and consecutiveSilences is
nonzero (so they are never both positive on entry to a new window); moreover a
single smoothing step always zeroes one of the two counters. -/
theorem counters_mutually_exclusive :
    (∀ (f2n : ℚ → ℤ) (magSpec : List ℚ → Spectrum) (fp : ℕ) (ws : List (List ℚ)),
      (runWindows f2n magSpec fp initialSmoothState ws).1.consecutiveDetections = 0 ∨
      (runWindows f2n magSpec fp initialSmoothState ws).1.consecutiveSilences = 0) ∧
    (∀ (f : ℚ) (n : ℤ) (t : ℚ) (s : SmoothState),
      (smoothingStep f n t s).1.consecutiveDetections = 0 ∨
      (smoothingStep f n t s).1.consecutiveSilences = 0) :=
  ⟨fun f2n magSpec fp ws =>
      runWindows_counters f2n magSpec ws fp initialSmoothState (Or.inl rfl),
   smoothingStep_counters⟩

/-- Helper: every detection recorded by one smoothing step has frequency
strictly above 200 Hz, because the detection branch requires
fundamentalFrequency > 200. -/
theorem smoothingStep_dets_freq (f : ℚ) (n : ℤ) (t : ℚ) (s : SmoothState) :
    ((smoothingStep f n t s).2.2.all (fun d => decide (200 < d.frequencyHz))) = true := by
  unfold smoothingStep
  by_cases h1 : n > 0 ∧ f > 200
  · rw [if_pos h1]
    by_cases h2 : n = s.pendingMidiNote
    · rw [if_pos h2]
      dsimp only
      split_ifs <;> simp [h1.2]
    · rw [if_neg h2]
      dsimp only
      split_ifs <;> simp [h1.2]
  · rw [if_neg h1]
    dsimp only
    split_ifs <;> simp

/-- Helper: every detection recorded along a run of windows has frequency
strictly above 200 Hz. -/
theorem runWindows_dets_freq (f2n : ℚ → ℤ) (magSpec : List ℚ → Spectrum)
    (ws : List (List ℚ)) :
    ∀ (fp : ℕ) (s : SmoothState),
      ((runWindows f2n magSpec fp s ws).2.2.all
        (fun d => decide (200 < d.frequencyHz))) = true := by
  induction ws with
  | nil => intro fp s; simp [runWindows]
  | cons w ws ih =>
    intro fp s
    simp only [runWindows, List.all_append, Bool.and_eq_true]
    exact ⟨smoothingStep_dets_freq _ _ _ _, ih _ _⟩

/-- Claim C10: no detection-log entry is ever recorded with a frequency of
200 Hz or below, and a smoothing step can write a note-on message only when
the window's detected fundamental frequency exceeds 200 Hz, although the
spectral band minimum is 80 Hz. -/
theorem noNoteOn_below_200hz :
    (∀ (f2n : ℚ → ℤ) (magSpec : List ℚ → Spectrum) (fp : ℕ) (ws : List (List ℚ)),
      ((runWindows f2n magSpec fp initialSmoothState ws).2.2.all
        (fun d => decide (200 < d.frequencyHz))) = true) ∧
    (∀ (f : ℚ) (n : ℤ) (t : ℚ) (s : SmoothState),
      200 < f ∨ ((smoothingStep f n t s).2.1.all (fun e => !e.isNoteOn)) = true) := by
  refine ⟨fun f2n magSpec fp ws => runWindows_dets_freq f2n magSpec ws fp _,
    fun f n t s => ?_⟩
  by_cases hf : 200 < f
  · exact Or.inl hf
  · refine Or.inr ?_
    unfold smoothingStep
    rw [if_neg (by tauto)]
    dsimp only
    split_ifs <;> simp [MidiEvent.isNoteOn]

/-- Helper: a smoothing step has exactly four outcomes: no message; a bare
note-on (only when no note was active); a note-off of the active note
immediately followed by a note-on (a switch); or a bare note-off of the
active note (silence). -/
theorem smoothingStep_cases (f : ℚ) (n : ℤ) (t : ℚ) (s : SmoothState) :
    ((smoothingStep f n t s).2.1 = [] ∧
       (smoothingStep f n t s).1.lastMidiNote = s.lastMidiNote) ∨
    (0 < n ∧ s.lastMidiNote ≤ 0 ∧
       (smoothingStep f n t s).2.1 = [MidiEvent.noteOn n] ∧
       (smoothingStep f n t s).1.lastMidiNote = n) ∨
    (0 < n ∧ 0 < s.lastMidiNote ∧
       (smoothingStep f n t s).2.1 =
         [MidiEvent.noteOff s.lastMidiNote, MidiEvent.noteOn n] ∧
       (smoothingStep f n t s).1.lastMidiNote = n) ∨
    (0 < s.lastMidiNote ∧
       (smoothingStep f n t s).2.1 = [MidiEvent.noteOff s.lastMidiNote] ∧
       (smoothingStep f n t s).1.lastMidiNote = 0) := by
  unfold smoothingStep
  by_cases h1 : n > 0 ∧ f > 200
  · rw [if_pos h1]
    by_cases h2 : n = s.pendingMidiNote
    · rw [if_pos h2]
      dsimp only
      split_ifs with h3 h4
      · exact Or.inr (Or.inr (Or.inl ⟨h1.1, h4, by simp, by simp⟩))
      · exact Or.inr (Or.inl ⟨h1.1, by omega, by simp, by simp⟩)
      · exact Or.inl ⟨by simp, by simp⟩
    · rw [if_neg h2]
      dsimp only
      split_ifs with h3 h4
      · exact Or.inr (Or.inr (Or.inl ⟨h1.1, h4, by simp, by simp⟩))
      · exact Or.inr (Or.inl ⟨h1.1, by omega, by simp, by simp⟩)
      · exact Or.inl ⟨by simp, by simp⟩
  · rw [if_neg h1]
    dsimp only
    split_ifs with h3
    · exact Or.inr (Or.inr (Or.inr ⟨h3.2, by simp, by simp⟩))
    · exact Or.inl ⟨by simp, by simp⟩

/-- Helper: the active note never goes negative across a smoothing step. -/
theorem smoothingStep_last_nonneg (f : ℚ) (n : ℤ) (t : ℚ) (s : SmoothState)
    (h : 0 ≤ s.lastMidiNote) : 0 ≤ (smoothingStep f n t s).1.lastMidiNote := by
  rcases smoothingStep_cases f n t s with ⟨_, h2⟩ | ⟨hn, _, _, h2⟩ | ⟨hn, _, _, h2⟩ | ⟨_, _, h2⟩ <;>
    rw [h2] <;> omega

/-- Helper: with a positive active note, a head event must be a note-off. -/
theorem alternates_pos_head {a : ℤ} {e : MidiEvent} {l : List MidiEvent}
    (ha : 0 < a) (h : Alternates a (e :: l)) : e.isNoteOn = false := by
  cases h with
  | stepOn n rest hn hrest => exact absurd ha (lt_irrefl 0)
  | stepOff a rest hpos hrest => rfl

/-- Helper: with no active note, a head event must be a note-on. -/
theorem alternates_zero_head {e : MidiEvent} {l : List MidiEvent}
    (h : Alternates 0 (e :: l)) : e.isNoteOn = true := by
  cases h with
  | stepOn n rest hn hrest => rfl
  | stepOff a rest hpos hrest => exact absurd hpos (lt_irrefl 0)

/-- Helper: a well-formed trace strictly alternates between note-on and
note-off messages. -/
theorem alternates_chain {a : ℤ} {l : List MidiEvent} (h : Alternates a l) :
    List.Chain' (fun x y => x ≠ y) (l.map MidiEvent.isNoteOn) := by
  induction h with
  | nil a => simp
  | stepOn n rest hn hrest ih =>
    cases rest with
    | nil => simp
    | cons e r =>
      rw [List.map_cons, List.map_cons, List.chain'_cons]
      refine ⟨?_, ?_⟩
      · rw [alternates_pos_head hn hrest]
        simp [MidiEvent.isNoteOn]
      · rw [List.map_cons] at ih
        exact ih
  | stepOff a rest hpos hrest ih =>
    cases rest with
    | nil => simp
    | cons e r =>
      rw [List.map_cons, List.map_cons, List.chain'_cons]
      refine ⟨?_, ?_⟩
      · rw [alternates_zero_head hrest]
        simp [MidiEvent.isNoteOn]
      · rw [List.map_cons] at ih
        exact ih

/-- Helper: a well-formed trace from the silent state starts with a note-on
if it is nonempty. -/
theorem alternates_headD {l : List MidiEvent} (h : Alternates 0 l) :
    (l.map MidiEvent.isNoteOn).headD true = true := by
  cases l with
  | nil => rfl
  | cons e r => simpa using alternates_zero_head h

/-- Helper: prepending the messages of one smoothing step to a trace that is
well-formed for the step's resulting active note yields a trace well-formed
for the step's starting active note. -/
theorem smoothingStep_glue (f : ℚ) (n : ℤ) (t : ℚ) (s : SmoothState)
    (h : 0 ≤ s.lastMidiNote) (rest : List MidiEvent)
    (hrest : Alternates (smoothingStep f n t s).1.lastMidiNote rest) :
    Alternates s.lastMidiNote ((smoothingStep f n t s).2.1 ++ rest) := by
  rcases smoothingStep_cases f n t s with
    ⟨he, h2⟩ | ⟨hn, hle, he, h2⟩ | ⟨hn, hpos, he, h2⟩ | ⟨hpos, he, h2⟩
  · rw [he]
    rw [h2] at hrest
    simpa using hrest
  · rw [he, List.singleton_append]
    rw [h2] at hrest
    have hz : s.lastMidiNote = 0 := le_antisymm hle h
    rw [hz]
    exact Alternates.stepOn n rest hn hrest
  · rw [he, List.cons_append, List.singleton_append]
    rw [h2] at hrest
    exact Alternates.stepOff s.lastMidiNote _ hpos (Alternates.stepOn n rest hn hrest)
  · rw [he, List.singleton_append]
    rw [h2] at hrest
    exact Alternates.stepOff s.lastMidiNote _ hpos hrest

/-- Helper: the full MIDI trace of any run of windows is well-formed for the
starting active note. -/
theorem runWindows_alternates (f2n : ℚ → ℤ) (magSpec : List ℚ → Spectrum)
    (ws : List (List ℚ)) :
    ∀ (fp : ℕ) (s : SmoothState), 0 ≤ s.lastMidiNote →
      Alternates s.lastMidiNote (runWindows f2n magSpec fp s ws).2.1 := by
  induction ws with
  | nil => intro fp s _; exact Alternates.nil _
  | cons w ws ih =>
    intro fp s h
    simp only [runWindows, processWindow]
    exact smoothingStep_glue _ _ _ _ h _ (ih _ _ (smoothingStep_last_nonneg _ _ _ _ h))

/-- Claim C1: for every window sequence fed to the note state machine from the
initial silent state, the emitted MIDI trace is well-formed: a note-on occurs
only when no note is active and a note-off only names the active note (so
there are never two note-ons without an intervening note-off and never a
note-off with no active note), the on/off kinds strictly alternate starting
with a note-on; and whenever a step switches from an active note A to a new
note B, the step's messages are exactly noteOff A immediately followed by
noteOn B. -/
theorem noteStateMachine_trace_wellFormed :
    (∀ (f2n : ℚ → ℤ) (magSpec : List ℚ → Spectrum) (fp : ℕ) (ws : List (List ℚ)),
      Alternates 0 (runWindows f2n magSpec fp initialSmoothState ws).2.1 ∧
      List.Chain' (fun x y => x ≠ y)
        ((runWindows f2n magSpec fp initialSmoothState ws).2.1.map MidiEvent.isNoteOn) ∧
      ((runWindows f2n magSpec fp initialSmoothState ws).2.1.map MidiEvent.isNoteOn).headD true
        = true) ∧
    (∀ (f : ℚ) (n : ℤ) (t : ℚ) (s : SmoothState) (b : ℤ),
      0 < s.lastMidiNote → MidiEvent.noteOn b ∈ (smoothingStep f n t s).2.1 →
      (smoothingStep f n t s).2.1 =
        [MidiEvent.noteOff s.lastMidiNote, MidiEvent.noteOn b]) := by
  constructor
  · intro f2n magSpec fp ws
    have h := runWindows_alternates f2n magSpec ws fp initialSmoothState le_rfl
    exact ⟨h, alternates_chain h, alternates_headD h⟩
  · intro f n t s b hpos hmem
    rcases smoothingStep_cases f n t s with
      ⟨he, _⟩ | ⟨_, hle, he, _⟩ | ⟨_, _, he, _⟩ | ⟨_, he, _⟩
    · rw [he] at hmem
      simp at hmem
    · omega
    · rw [he] at hmem ⊢
      simp only [List.mem_cons, List.mem_singleton, MidiEvent.noteOn.injEq] at hmem
      rcases hmem with hmem | hmem | hmem
      · exact absurd hmem (by simp)
      · rw [hmem]
      · simp at hmem
    · rw [he] at hmem
      simp at hmem

/-- Witness for C1: a concrete switching step from active note 60 with a
confident 300 Hz detection mapped to note 62 emits exactly noteOff 60 then
noteOn 62. -/
theorem noteStateMachine_trace_wellFormed_witness :
    (smoothingStep 300 62 0
        { lastMidiNote := 60, consecutiveDetections := 0, consecutiveSilences := 0,
          pendingMidiNote := 0, pendingFrequency := 0 }).2.1 =
      [MidiEvent.noteOff 60, MidiEvent.noteOn 62] :=
  noteStateMachine_trace_wellFormed.2 300 62 0
    { lastMidiNote := 60, consecutiveDetections := 0, consecutiveSilences := 0,
      pendingMidiNote := 0, pendingFrequency := 0 } 62 (by decide) (by decide)

/-- Helper: the computed lower scan bound is bin 13 (the truncation of
80·8192/48000 = 13.65...). -/
theorem minIndexI_eq : minIndexI = 13 := by
  have h : ⌊(minFrequency * (fftSize : ℚ)) / (sampleRate : ℚ)⌋ = 13 := by
    unfold minFrequency fftSize sampleRate
    norm_num [Int.floor_eq_iff]
  unfold minIndexI
  rw [h]
  decide

/-- Helper: the computed upper scan limit is bin 341 (the truncation of
2000·8192/48000 = 341.33..., below 8192/2). -/
theorem maxIndexLimitI_eq : maxIndexLimitI = 341 := by
  have h : ⌊(maxFrequency * (fftSize : ℚ)) / (sampleRate : ℚ)⌋ = 341 := by
    unfold maxFrequency fftSize sampleRate
    norm_num [Int.floor_eq_iff]
  unfold maxIndexLimitI
  rw [h]
  decide

/-- Helper: the scanned bin range is exactly bins 13 through 340. -/
theorem scanRange_eq : scanRange = List.range' 13 328 := by
  unfold scanRange
  rw [minIndexI_eq, maxIndexLimitI_eq]
  rfl

/-- Helper: the scan fold either leaves the accumulator untouched or returns
the magnitude and index of some scanned bin. -/
theorem scanLoop_result (sp : Spectrum) (l : List ℕ) :
    ∀ acc : ℚ × ℤ, scanLoop sp l acc = acc ∨
      ∃ i ∈ l, scanLoop sp l acc = (sp i, (i : ℤ)) := by
  induction l with
  | nil => intro acc; exact Or.inl rfl
  | cons i is ih =>
    intro acc
    simp only [scanLoop]
    by_cases h : sp i > acc.1
    · rw [if_pos h]
      rcases ih (sp i, (i : ℤ)) with h2 | ⟨j, hj, h2⟩
      · exact Or.inr ⟨i, by simp, h2⟩
      · exact Or.inr ⟨j, by simp [hj], h2⟩
    · rw [if_neg h]
      rcases ih acc with h2 | ⟨j, hj, h2⟩
      · exact Or.inl h2
      · exact Or.inr ⟨j, by simp [hj], h2⟩

/-- Helper: the scan fold's final magnitude dominates the starting magnitude
and the magnitude of every scanned bin. -/
theorem scanLoop_max (sp : Spectrum) (l : List ℕ) :
    ∀ acc : ℚ × ℤ, acc.1 ≤ (scanLoop sp l acc).1 ∧ ∀ j ∈ l, sp j ≤ (scanLoop sp l acc).1 := by
  induction l with
  | nil => intro acc; exact ⟨le_rfl, by simp⟩
  | cons i is ih =>
    intro acc
    simp only [scanLoop]
    by_cases h : sp i > acc.1
    · rw [if_pos h]
      obtain ⟨h1, h2⟩ := ih (sp i, (i : ℤ))
      refine ⟨le_trans h.le h1, fun j hj => ?_⟩
      rcases List.mem_cons.mp hj with rfl | hj
      · exact h1
      · exact h2 j hj
    · rw [if_neg h]
      obtain ⟨h1, h2⟩ := ih acc
      refine ⟨h1, fun j hj => ?_⟩
      rcases List.mem_cons.mp hj with rfl | hj
      · exact le_trans (not_lt.mp h) h1
      · exact h2 j hj

/-- Helper: the scan fold only consults the spectrum on the scanned bins. -/
theorem scanLoop_congr (sp sp' : Spectrum) (l : List ℕ)
    (h : ∀ i ∈ l, sp i = sp' i) :
    ∀ acc : ℚ × ℤ, scanLoop sp l acc = scanLoop sp' l acc := by
  induction l with
  | nil => intro acc; rfl
  | cons i is ih =>
    intro acc
    simp only [scanLoop]
    rw [h i (by simp)]
    exact ih (fun j hj => h j (by simp [hj])) _

/-- Helper: the scan fold of the all-zero spectrum never updates the initial
accumulator (0, -1). -/
theorem scanLoop_zero (l : List ℕ) :
    scanLoop (fun _ => (0 : ℚ)) l (0, -1) = (0, -1) := by
  induction l with
  | nil => rfl
  | cons i is ih =>
    simp only [scanLoop]
    rw [if_neg (lt_irrefl 0)]
    exact ih

/-- Helper: the scan fold keeps its accumulator when no scanned bin exceeds
the accumulated magnitude. -/
theorem scanLoop_no_update (sp : Spectrum) (l : List ℕ) (acc : ℚ × ℤ)
    (h : ∀ j ∈ l, ¬ acc.1 < sp j) : scanLoop sp l acc = acc := by
  induction l with
  | nil => rfl
  | cons k ks ih =>
    simp only [scanLoop]
    rw [if_neg (h k (by simp))]
    exact ih (fun j hj => h j (by simp [hj]))

/-- Helper: when one scanned bin strictly dominates every other scanned bin
and the starting magnitude, the scan fold returns exactly that bin. -/
theorem scanLoop_strict (sp : Spectrum) (l : List ℕ) (i : ℕ) :
    ∀ acc : ℚ × ℤ, i ∈ l → (∀ j ∈ l, j ≠ i → sp j < sp i) → acc.1 < sp i →
      scanLoop sp l acc = (sp i, (i : ℤ)) := by
  induction l with
  | nil => intro acc hi; simp at hi
  | cons k ks ih =>
    intro acc hi hdom hacc
    simp only [scanLoop]
    by_cases hk : k = i
    · subst hk
      rw [if_pos hacc]
      apply scanLoop_no_update
      intro j hj
      dsimp only
      by_cases hji : j = k
      · subst hji
        exact lt_irrefl _
      · exact not_lt.mpr (hdom j (by simp [hj]) hji).le
    · have hik : i ∈ ks := by
        rcases List.mem_cons.mp hi with h' | h'
        · exact absurd h'.symm hk
        · exact h'
      have hdom' : ∀ j ∈ ks, j ≠ i → sp j < sp i :=
        fun j hj hji => hdom j (by simp [hj]) hji
      by_cases hcond : sp k > acc.1
      · rw [if_pos hcond]
        exact ih (sp k, (k : ℤ)) hik hdom' (hdom k (by simp) hk)
      · rw [if_neg hcond]
        exact ih acc hik hdom' hacc

/-- Helper: a window containing the sample 1 passes the noise gate. -/
theorem passesNoiseGate_one : passesNoiseGate [1] = true := by
  unfold passesNoiseGate
  simp only [List.foldl_cons, List.foldl_nil, abs_one]
  rw [if_pos (by norm_num : (1 : ℚ) > 0)]
  simp only [decide_eq_true_eq, noiseGateThreshold]
  norm_num

/-- Claim C3 counterexample: the scanned bin set is not the set of bins whose
frequency lies in [80, 2000]: bin 13 is scanned although its frequency
13·48000/8192 = 76.17 Hz is below 80 Hz, and bin 341, whose frequency
1998.05 Hz lies inside the band with magnitude 10 above the 5.0 floor, is
never scanned, so a spectrum concentrated on bin 341 yields no pitch. -/
theorem spectralScan_band_counterexample :
    (13 ∈ scanRange ∧ binFrequency 13 < minFrequency) ∧
    (341 ∉ scanRange ∧
      minFrequency ≤ binFrequency 341 ∧ binFrequency 341 ≤ maxFrequency ∧
      spectralMagnitudeThreshold < (fun i => if i = 341 then (10 : ℚ) else 0) 341 ∧
      detectFundamentalFrequency [1] (fun i => if i = 341 then (10 : ℚ) else 0) = 0) := by
  refine ⟨⟨by rw [scanRange_eq]; decide, ?_⟩,
          by rw [scanRange_eq]; decide, ?_, ?_, by norm_num [spectralMagnitudeThreshold], ?_⟩
  · unfold binFrequency minFrequency sampleRate fftSize
    norm_num
  · unfold binFrequency minFrequency sampleRate fftSize
    norm_num
  · unfold binFrequency maxFrequency sampleRate fftSize
    norm_num
  · unfold detectFundamentalFrequency
    rw [passesNoiseGate_one]
    have hc := scanLoop_congr (fun i => if i = 341 then (10 : ℚ) else 0) (fun _ => 0)
      scanRange (by rw [scanRange_eq]; decide) (0, -1)
    simp only [if_true]
    rw [hc, scanLoop_zero]
    norm_num

/-- Claim C3 (amended): the estimator scans exactly the bins 13 through 340
(minIndex = max(1, trunc(80·8192/48000)) = 13 up to but excluding
maxIndexLimit = min(8192/2, trunc(2000·8192/48000)) = 341), a range that can
include a bin below the band and exclude the topmost in-band bin; any nonzero
reported frequency is the frequency of a scanned bin of maximal magnitude,
that magnitude exceeds the 5.0 floor, and the frequency re-validates inside
[80, 2000]; conversely, on a gated window, whenever a scanned bin strictly
dominates all other scanned bins, its magnitude exceeds the 5.0 floor and its
frequency lies in the band, the detector returns exactly that bin's frequency
(on ties the first maximal bin wins); and the result never depends on bins
outside the scanned range. -/
theorem spectralScan_amended :
    scanRange = List.range' 13 328 ∧
    (∀ (w : List ℚ) (sp : Spectrum), detectFundamentalFrequency w sp ≠ 0 →
      ∃ i ∈ scanRange, detectFundamentalFrequency w sp = binFrequency (i : ℤ) ∧
        spectralMagnitudeThreshold < sp i ∧
        minFrequency ≤ binFrequency (i : ℤ) ∧ binFrequency (i : ℤ) ≤ maxFrequency ∧
        ∀ j ∈ scanRange, sp j ≤ sp i) ∧
    (∀ (w : List ℚ) (sp : Spectrum) (i : ℕ),
      passesNoiseGate w = true → i ∈ scanRange →
      spectralMagnitudeThreshold < sp i →
      (∀ j ∈ scanRange, j ≠ i → sp j < sp i) →
      minFrequency ≤ binFrequency (i : ℤ) → binFrequency (i : ℤ) ≤ maxFrequency →
      detectFundamentalFrequency w sp = binFrequency (i : ℤ)) ∧
    (∀ (w : List ℚ) (sp sp' : Spectrum), (∀ i ∈ scanRange, sp i = sp' i) →
      detectFundamentalFrequency w sp = detectFundamentalFrequency w sp') := by
  refine ⟨scanRange_eq, fun w sp hne => ?_,
    fun w sp i hg hi hmag hdom hb1 hb2 => ?_, fun w sp sp' h => ?_⟩
  · unfold detectFundamentalFrequency at hne ⊢
    by_cases hg : passesNoiseGate w
    · rw [if_pos hg] at hne ⊢
      dsimp only at hne ⊢
      rcases scanLoop_result sp scanRange (0, -1) with hres | ⟨i, hi, hres⟩
      · rw [hres] at hne
        norm_num at hne
      · rw [hres] at hne ⊢
        dsimp only at hne ⊢
        by_cases hc : (i : ℤ) > 0 ∧ sp i > spectralMagnitudeThreshold
        · rw [if_pos hc] at hne ⊢
          by_cases hb : minFrequency ≤ binFrequency (i : ℤ) ∧ binFrequency (i : ℤ) ≤ maxFrequency
          · rw [if_pos hb] at hne ⊢
            refine ⟨i, hi, rfl, hc.2, hb.1, hb.2, fun j hj => ?_⟩
            have hm := (scanLoop_max sp scanRange (0, -1)).2 j hj
            rw [hres] at hm
            exact hm
          · rw [if_neg hb] at hne
            exact absurd rfl hne
        · rw [if_neg hc] at hne
          exact absurd rfl hne
    · rw [if_neg hg] at hne
      exact absurd rfl hne
  · have hpos : (0 : ℚ) < sp i :=
      lt_trans (by norm_num [spectralMagnitudeThreshold]) hmag
    have hscan : scanLoop sp scanRange (0, -1) = (sp i, (i : ℤ)) :=
      scanLoop_strict sp scanRange i (0, -1) hi hdom hpos
    have hipos : (0 : ℤ) < (i : ℤ) := by
      rw [scanRange_eq, List.mem_range'] at hi
      obtain ⟨j, hj, hij⟩ := hi
      omega
    unfold detectFundamentalFrequency
    rw [if_pos hg]
    dsimp only
    rw [hscan]
    dsimp only
    rw [if_pos ⟨hipos, hmag⟩, if_pos ⟨hb1, hb2⟩]
  · unfold detectFundamentalFrequency
    rw [scanLoop_congr sp sp' scanRange h (0, -1)]

/-- Witness for the amended C3: on the concrete spectrum concentrated on the
scanned bin 35 (magnitude 10), the detector returns exactly bin 35's frequency
(completeness conjunct) — in particular a nonzero result, discharging the
soundness conjunct's hypothesis — and two concrete spectra agreeing on the
scanned bins 13..340 but differing on bin 341 produce the same output
(congruence conjunct). -/
theorem spectralScan_amended_witness :
    detectFundamentalFrequency [1] (fun i => if i = 35 then (10 : ℚ) else 0)
      = binFrequency ((35 : ℕ) : ℤ) ∧
    (∃ i ∈ scanRange,
      detectFundamentalFrequency [1] (fun i => if i = 35 then (10 : ℚ) else 0)
        = binFrequency (i : ℤ) ∧
      spectralMagnitudeThreshold < (fun i => if i = 35 then (10 : ℚ) else 0) i ∧
      minFrequency ≤ binFrequency (i : ℤ) ∧ binFrequency (i : ℤ) ≤ maxFrequency ∧
      ∀ j ∈ scanRange, (fun i => if i = 35 then (10 : ℚ) else 0) j
        ≤ (fun i => if i = 35 then (10 : ℚ) else 0) i) ∧
    detectFundamentalFrequency [1] (fun i => if i = 35 then (10 : ℚ) else 0)
      = detectFundamentalFrequency [1]
          (fun i => if i = 341 then (99 : ℚ) else if i = 35 then (10 : ℚ) else 0) := by
  have hcomp :=
    spectralScan_amended.2.2.1 [1] (fun i => if i = 35 then (10 : ℚ) else 0) 35
      passesNoiseGate_one (by rw [scanRange_eq]; decide)
      (by norm_num [spectralMagnitudeThreshold])
      (by rw [scanRange_eq]; decide)
      (by norm_num [binFrequency, minFrequency, sampleRate, fftSize])
      (by norm_num [binFrequency, maxFrequency, sampleRate, fftSize])
  have hne : detectFundamentalFrequency [1] (fun i => if i = 35 then (10 : ℚ) else 0) ≠ 0 := by
    rw [hcomp]
    norm_num [binFrequency, sampleRate, fftSize]
  exact ⟨hcomp, spectralScan_amended.2.1 [1] _ hne,
    spectralScan_amended.2.2.2 [1] _ _ (by rw [scanRange_eq]; decide)⟩

/-- Helper: the character of a decimal digit has the code 48 + d. -/
theorem digitChar_toNat {d : ℕ} (h : d < 10) : (digitChar d).toNat = 48 + d := by
  interval_cases d <;> rfl

/-- Helper: unfolding of natToChars on a single digit. -/
theorem natToChars_lt {n : ℕ} (h : n < 10) : natToChars n = [digitChar n] := by
  rw [natToChars, dif_pos h]

/-- Helper: unfolding of natToChars on a multi-digit number. -/
theorem natToChars_ge {n : ℕ} (h : ¬ n < 10) :
    natToChars n = natToChars (n / 10) ++ [digitChar (n % 10)] := by
  rw [natToChars, dif_neg h]

/-- Helper: the decimal text of a natural number consists of digit characters. -/
theorem natToChars_digits (n : ℕ) :
    ∀ c ∈ natToChars n, 48 ≤ c.toNat ∧ c.toNat ≤ 57 := by
  induction n using Nat.strong_induction_on with
  | _ n ih =>
    by_cases h : n < 10
    · rw [natToChars_lt h]
      intro c hc
      rw [List.mem_singleton] at hc
      subst hc
      rw [digitChar_toNat h]
      omega
    · rw [natToChars_ge h]
      intro c hc
      rcases List.mem_append.mp hc with hc | hc
      · exact ih (n / 10) (Nat.div_lt_self (by omega) (by omega)) c hc
      · rw [List.mem_singleton] at hc
        subst hc
        rw [digitChar_toNat (Nat.mod_lt _ (by omega))]
        omega

/-- Helper: the decimal text of a natural number is never empty. -/
theorem natToChars_ne_nil (n : ℕ) : natToChars n ≠ [] := by
  by_cases h : n < 10
  · rw [natToChars_lt h]; simp
  · rw [natToChars_ge h]; simp

/-- Helper: appending one digit multiplies the parsed value by ten. -/
theorem digitsToNat_append (l : List Char) (c : Char) :
    digitsToNat (l ++ [c]) = 10 * digitsToNat l + (c.toNat - 48) := by
  unfold digitsToNat
  rw [List.foldl_append]
  rfl

/-- Helper: parsing the decimal digits of n recovers n. -/
theorem digitsToNat_natToChars (n : ℕ) : digitsToNat (natToChars n) = n := by
  induction n using Nat.strong_induction_on with
  | _ n ih =>
    by_cases h : n < 10
    · rw [natToChars_lt h]
      simp only [digitsToNat, List.foldl_cons, List.foldl_nil, digitChar_toNat h]
      omega
    · rw [natToChars_ge h, digitsToNat_append,
          ih (n / 10) (Nat.div_lt_self (by omega) (by omega)),
          digitChar_toNat (Nat.mod_lt _ (by omega))]
      omega

/-- Helper: the natural-number reader inverts the natural-number writer. -/
theorem parseNat_natToChars (n : ℕ) : parseNat (natToChars n) = some n := by
  have hall : (natToChars n).all isDigitChar = true := by
    rw [List.all_eq_true]
    intro c hc
    have hd := natToChars_digits n c hc
    unfold isDigitChar
    simpa using hd
  unfold parseNat
  rw [if_pos ⟨natToChars_ne_nil n, hall⟩, digitsToNat_natToChars]

/-- Helper: the decimal text of an integer consists of the minus sign and
digit characters. -/
theorem intToChars_chars (i : ℤ) :
    ∀ c ∈ intToChars i, c.toNat = 45 ∨ (48 ≤ c.toNat ∧ c.toNat ≤ 57) := by
  unfold intToChars
  split_ifs with h
  · intro c hc
    rcases List.mem_cons.mp hc with rfl | hc
    · exact Or.inl rfl
    · exact Or.inr (natToChars_digits _ c hc)
  · intro c hc
    exact Or.inr (natToChars_digits _ c hc)

/-- Helper: the integer reader inverts the integer writer. -/
theorem parseInt_intToChars (i : ℤ) : parseInt (intToChars i) = some i := by
  unfold intToChars
  split_ifs with h
  · unfold parseInt
    dsimp only
    rw [if_pos (show Char.ofNat 45 = '-' from by decide)]
    rw [parseNat_natToChars]
    have ht : ((-i).toNat : ℤ) = -i := Int.toNat_of_nonneg (by omega)
    simp [ht]
  · obtain ⟨c, cs, hc⟩ : ∃ c cs, natToChars i.toNat = c :: cs := by
      cases hnc : natToChars i.toNat with
      | nil => exact absurd hnc (natToChars_ne_nil _)
      | cons c cs => exact ⟨c, cs, rfl⟩
    rw [hc]
    unfold parseInt
    dsimp only
    rw [if_neg ?hne]
    · rw [← hc, parseNat_natToChars]
      have ht : (i.toNat : ℤ) = i := Int.toNat_of_nonneg (not_lt.mp h)
      simp [ht]
    case hne =>
      have hd := natToChars_digits i.toNat c (by rw [hc]; exact List.mem_cons_self c cs)
      intro heq
      rw [heq] at hd
      have h45 : Char.toNat '-' = 45 := rfl
      omega

/-- Helper: splitting never produces an empty list of fragments. -/
theorem splitSep_ne_nil (sep : Char) (l : List Char) : splitSep sep l ≠ [] := by
  induction l with
  | nil => simp [splitSep]
  | cons c rest ih =>
    simp only [splitSep]
    split_ifs <;> simp

/-- Helper: a fragment free of the separator splits into itself alone. -/
theorem splitSep_not_mem {sep : Char} {l : List Char} (h : sep ∉ l) :
    splitSep sep l = [l] := by
  induction l with
  | nil => rfl
  | cons c cs ih =>
    have hc : ¬ c = sep := fun he => h (by simp [he])
    have hcs : sep ∉ cs := fun hm => h (List.mem_cons_of_mem _ hm)
    simp only [splitSep]
    rw [if_neg hc, ih hcs]
    rfl

/-- Helper: splitting a separator-free fragment followed by the separator
peels off exactly that fragment. -/
theorem splitSep_append {sep : Char} {l : List Char} (h : sep ∉ l) (r : List Char) :
    splitSep sep (l ++ sep :: r) = l :: splitSep sep r := by
  induction l with
  | nil =>
    simp only [List.nil_append, splitSep]
    simp
  | cons c cs ih =>
    have hc : ¬ c = sep := fun he => h (by simp [he])
    have hcs : sep ∉ cs := fun hm => h (List.mem_cons_of_mem _ hm)
    simp only [List.cons_append, splitSep]
    rw [if_neg hc]
    simp only [List.append_eq]
    rw [ih hcs]
    rfl

/-- Helper: the comma never occurs in the text of an integer. -/
theorem comma_not_mem_intToChars (i : ℤ) : ',' ∉ intToChars i := by
  intro hm
  have hd := intToChars_chars i _ hm
  have h44 : Char.toNat ',' = 44 := rfl
  omega

/-- Helper: the decimal point never occurs in the text of a natural number. -/
theorem dot_not_mem_natToChars (n : ℕ) : '.' ∉ natToChars n := by
  intro hm
  have hd := natToChars_digits n _ hm
  have h46 : Char.toNat '.' = 46 := rfl
  omega

/-- Helper: leading zero characters do not change the parsed digit value. -/
theorem digitsToNat_replicate_prepend (k : ℕ) (cs : List Char) :
    digitsToNat (List.replicate k '0' ++ cs) = digitsToNat cs := by
  unfold digitsToNat
  rw [List.foldl_append]
  have hz : List.foldl (fun a c => 10 * a + (c.toNat - 48)) 0 (List.replicate k '0') = 0 := by
    induction k with
    | zero => rfl
    | succ k ih => rw [List.replicate_succ, List.foldl_cons]; exact ih
  rw [hz]

/-- Helper: appending k zero characters multiplies the parsed value by 10^k. -/
theorem digitsToNat_append_replicate (cs : List Char) (k : ℕ) :
    digitsToNat (cs ++ List.replicate k '0') = digitsToNat cs * 10 ^ k := by
  induction k with
  | zero => simp
  | succ k ih =>
    rw [List.replicate_succ', ← List.append_assoc, digitsToNat_append, ih]
    have h48 : Char.toNat '0' = 48 := rfl
    rw [h48]
    ring_nf

/-- Helper: every list of characters is its trailing-zero trimming followed
by some run of zero characters. -/
theorem trimTrailingZeros_spec (cs : List Char) :
    ∃ k, cs = trimTrailingZeros cs ++ List.replicate k '0' := by
  refine ⟨(cs.reverse.takeWhile (fun c => c = '0')).length, ?_⟩
  have hrep : cs.reverse.takeWhile (fun c => c = '0')
      = List.replicate (cs.reverse.takeWhile (fun c => c = '0')).length '0' := by
    apply List.eq_replicate_of_mem
    intro b hb
    have := List.mem_takeWhile_imp hb
    simpa using this
  conv_lhs => rw [← List.reverse_reverse cs,
    ← List.takeWhile_append_dropWhile (fun c => decide (c = '0')) cs.reverse]
  rw [List.reverse_append]
  unfold trimTrailingZeros
  rw [hrep, List.reverse_replicate, List.length_replicate]

/-- Helper: the trimmed characters all come from the original list. -/
theorem mem_trimTrailingZeros {c : Char} {l : List Char}
    (h : c ∈ trimTrailingZeros l) : c ∈ l := by
  unfold trimTrailingZeros at h
  rw [List.mem_reverse] at h
  have := (List.dropWhile_sublist _).subset h
  rwa [List.mem_reverse] at this

/-- Helper: a number below 10^d has at most d decimal digits. -/
theorem natToChars_length_le {n d : ℕ} (hd : 0 < d) (h : n < 10 ^ d) :
    (natToChars n).length ≤ d := by
  induction n using Nat.strong_induction_on generalizing d with
  | _ n ih =>
    by_cases h10 : n < 10
    · rw [natToChars_lt h10]
      simpa using hd
    · rw [natToChars_ge h10]
      have hd2 : 2 ≤ d := by
        by_contra hcon
        have : d = 1 := by omega
        subst this
        simp at h
        omega
      have hlt : n / 10 < 10 ^ (d - 1) := by
        have h1 : 10 ^ d = 10 ^ (d - 1) * 10 := by
          rw [← pow_succ]
          congr 1
          omega
        omega
      have := ih (n / 10) (Nat.div_lt_self (by omega) (by omega)) (by omega) hlt
      simp only [List.length_append, List.length_singleton]
      omega

/-- Helper: the printed fraction of fp with d places is a nonempty run of
digit characters whose parsed value v and length d - k recover fp as v·10^k. -/
theorem fracChars_val (fp d : ℕ) (hfp : fp ≠ 0) (hlt : fp < 10 ^ d) :
    ∃ k, k ≤ d ∧ fracChars fp d ≠ [] ∧
      (∀ c ∈ fracChars fp d, 48 ≤ c.toNat ∧ c.toNat ≤ 57) ∧
      (fracChars fp d).length = d - k ∧
      digitsToNat (fracChars fp d) * 10 ^ k = fp := by
  have hd : 0 < d := by
    by_contra hcon
    have hdz : d = 0 := by omega
    subst hdz
    simp at hlt
    omega
  have hlen : (natToChars fp).length ≤ d := natToChars_length_le hd hlt
  set padded := List.replicate (d - (natToChars fp).length) '0' ++ natToChars fp with hpad
  have hplen : padded.length = d := by
    rw [hpad]
    simp only [List.length_append, List.length_replicate]
    omega
  have hpval : digitsToNat padded = fp := by
    rw [hpad, digitsToNat_replicate_prepend, digitsToNat_natToChars]
  obtain ⟨k, hk⟩ := trimTrailingZeros_spec padded
  have hfrac : fracChars fp d = trimTrailingZeros padded := rfl
  have hklen : (trimTrailingZeros padded).length + k = d := by
    have hlc := congrArg List.length hk
    simp only [List.length_append, List.length_replicate] at hlc
    omega
  have hval : digitsToNat (trimTrailingZeros padded) * 10 ^ k = fp := by
    rw [← hpval]
    conv_rhs => rw [hk]
    rw [digitsToNat_append_replicate]
  refine ⟨k, by omega, ?_, ?_, by rw [hfrac]; omega, by rw [hfrac]; exact hval⟩
  · rw [hfrac]
    intro hcon
    rw [hcon] at hval
    simp [digitsToNat] at hval
    exact hfp hval.symm
  · rw [hfrac]
    intro c hc
    have hmem := mem_trimTrailingZeros hc
    rw [hpad] at hmem
    rcases List.mem_append.mp hmem with hc' | hc'
    · have hc0 : c = '0' := List.eq_of_mem_replicate hc'
      subst hc0
      exact ⟨by decide, by decide⟩
    · exact natToChars_digits _ c hc'

/-- Helper: in the fixed-point regime, the field reader recovers from the
default-format text exactly the 6-significant-digit rounding of the value;
bundled with nonemptiness and the character classes of that text. -/
theorem parseUnsignedDouble_doubleToCharsNN (q : ℚ) (hreg : fixedRegime q) :
    parseUnsignedDouble (doubleToCharsNN q) = some (roundDefault6 q) ∧
    doubleToCharsNN q ≠ [] ∧
    (∀ c ∈ doubleToCharsNN q, c.toNat = 46 ∨ (48 ≤ c.toNat ∧ c.toNat ≤ 57)) := by
  rcases hreg with rfl | ⟨hlo, hhi⟩
  · refine ⟨?_, by simp [doubleToCharsNN], ?_⟩
    · unfold doubleToCharsNN roundDefault6
      rw [if_pos rfl, if_pos rfl]
      unfold parseUnsignedDouble
      rw [splitSep_not_mem (by decide : '.' ∉ ['0'])]
      dsimp only
      rw [show parseNat ['0'] = some 0 from by decide]
      simp
    · unfold doubleToCharsNN
      rw [if_pos rfl]
      intro c hc
      rw [List.mem_singleton] at hc
      subst hc
      exact Or.inr ⟨by decide, by decide⟩
  · have hqpos : (0 : ℚ) < q := lt_of_lt_of_le (by norm_num) hlo
    have hq0 : q ≠ 0 := ne_of_gt hqpos
    set d := fracDigits q with hd
    have hrnn : 0 ≤ round (q * 10 ^ d) := by
      rw [round_eq]
      apply Int.le_floor.mpr
      push_cast
      positivity
    set m : ℕ := (round (q * 10 ^ d)).toNat with hm
    have hmcast : ((m : ℤ)) = round (q * 10 ^ d) := Int.toNat_of_nonneg hrnn
    have hround : roundDefault6 q = (m : ℚ) / 10 ^ d := by
      unfold roundDefault6
      rw [if_neg hq0, ← hd, ← hmcast]
      push_cast
      ring
    have hm_decomp : m = 10 ^ d * (m / 10 ^ d) + m % 10 ^ d :=
      (Nat.div_add_mod m (10 ^ d)).symm
    unfold doubleToCharsNN
    rw [if_neg hq0]
    dsimp only
    rw [← hd, ← hm]
    by_cases hfp : m % 10 ^ d = 0
    · rw [if_pos hfp]
      refine ⟨?_, natToChars_ne_nil _, fun c hc => Or.inr (natToChars_digits _ c hc)⟩
      unfold parseUnsignedDouble
      rw [splitSep_not_mem (dot_not_mem_natToChars _)]
      dsimp only
      rw [parseNat_natToChars, hround]
      have hdiv : ((m / 10 ^ d : ℕ) : ℚ) = (m : ℚ) / 10 ^ d := by
        rw [Nat.cast_div (Nat.dvd_of_mod_eq_zero hfp)
          (by positivity : ((10 ^ d : ℕ) : ℚ) ≠ 0)]
        push_cast
        ring
      simp [hdiv]
    · rw [if_neg hfp]
      have hfplt : m % 10 ^ d < 10 ^ d := Nat.mod_lt _ (by positivity)
      obtain ⟨k, hk, hne, hdig, hlen2, hval⟩ := fracChars_val (m % 10 ^ d) d hfp hfplt
      refine ⟨?_, by simp, ?_⟩
      · unfold parseUnsignedDouble
        have hdot : '.' ∉ fracChars (m % 10 ^ d) d := by
          intro hmem
          have := hdig _ hmem
          have h46 : Char.toNat '.' = 46 := rfl
          omega
        rw [splitSep_append (dot_not_mem_natToChars _) _, splitSep_not_mem hdot]
        dsimp only
        rw [parseNat_natToChars]
        have hall : (fracChars (m % 10 ^ d) d).all isDigitChar = true := by
          rw [List.all_eq_true]
          intro c hc
          have := hdig c hc
          unfold isDigitChar
          simpa using this
        have hpn : parseNat (fracChars (m % 10 ^ d) d)
            = some (digitsToNat (fracChars (m % 10 ^ d) d)) := by
          unfold parseNat
          rw [if_pos ⟨hne, hall⟩]
        rw [hpn]
        dsimp only
        rw [hround, hlen2]
        congr 1
        have hv : ((digitsToNat (fracChars (m % 10 ^ d) d) : ℚ)) * 10 ^ k
            = ((m % 10 ^ d : ℕ) : ℚ) := by
          exact_mod_cast congrArg (Nat.cast : ℕ → ℚ) hval
        have hdk : (10 : ℚ) ^ (d - k) * 10 ^ k = 10 ^ d := by
          rw [← pow_add]
          congr 1
          omega
        have hmq : (m : ℚ) = 10 ^ d * ((m / 10 ^ d : ℕ) : ℚ) + ((m % 10 ^ d : ℕ) : ℚ) := by
          exact_mod_cast hm_decomp
        rw [hmq, ← hv, ← hdk]
        have h10k : (10 : ℚ) ^ k ≠ 0 := by positivity
        have h10dk : (10 : ℚ) ^ (d - k) ≠ 0 := by positivity
        field_simp
        ring
      · intro c hc
        rcases List.mem_append.mp hc with hc | hc
        · exact Or.inr (natToChars_digits _ c hc)
        · rcases List.mem_cons.mp hc with rfl | hc
          · exact Or.inl rfl
          · exact Or.inr (hdig c hc)

/-- Helper: the signed reader defers to the unsigned reader when no minus
sign occurs in the text. -/
theorem parseDouble_not_minus {cs : List Char} (h1 : cs ≠ [])
    (h2 : ∀ c ∈ cs, ¬ c = '-') : parseDouble cs = parseUnsignedDouble cs := by
  cases cs with
  | nil => exact absurd rfl h1
  | cons c rest =>
    unfold parseDouble
    dsimp only
    rw [if_neg (h2 c (by simp))]

/-- Helper: in the fixed regime the field reader inverts the field writer up
to the 6-significant-digit rounding the format performs. -/
theorem parseDouble_doubleToChars (q : ℚ) (hreg : fixedRegime q) :
    parseDouble (doubleToChars q) = some (roundDefault6 q) := by
  have hnn : 0 ≤ q := by
    rcases hreg with rfl | ⟨h, _⟩
    · exact le_rfl
    · exact le_trans (by norm_num) h
  obtain ⟨hp, hne, hcs⟩ := parseUnsignedDouble_doubleToCharsNN q hreg
  unfold doubleToChars
  rw [if_neg (not_lt.mpr hnn)]
  have hnm : ∀ c ∈ doubleToCharsNN q, ¬ c = '-' := by
    intro c hc heq
    have := hcs c hc
    rw [heq] at this
    have h45 : Char.toNat '-' = 45 := rfl
    omega
  rw [parseDouble_not_minus hne hnm]
  exact hp

/-- Helper: in the fixed regime the field text consists of the decimal point
and digit characters only. -/
theorem doubleToChars_chars {q : ℚ} (hreg : fixedRegime q) :
    ∀ c ∈ doubleToChars q, c.toNat = 46 ∨ (48 ≤ c.toNat ∧ c.toNat ≤ 57) := by
  have hnn : 0 ≤ q := by
    rcases hreg with rfl | ⟨h, _⟩
    · exact le_rfl
    · exact le_trans (by norm_num) h
  unfold doubleToChars
  rw [if_neg (not_lt.mpr hnn)]
  exact (parseUnsignedDouble_doubleToCharsNN q hreg).2.2

/-- Helper: the comma never occurs in a regime field text. -/
theorem comma_not_mem_doubleToChars {q : ℚ} (hreg : fixedRegime q) :
    ',' ∉ doubleToChars q := by
  intro hm
  have := doubleToChars_chars hreg _ hm
  have h44 : Char.toNat ',' = 44 := rfl
  omega

/-- Helper: the newline never occurs inside one serialized log line of
regime field values. -/
theorem newline_not_mem_serializeLine {d : Detection} (ht : fixedRegime d.timeSec)
    (hf : fixedRegime d.frequencyHz) : '\n' ∉ serializeLine d := by
  intro hm
  unfold serializeLine at hm
  have h10 : Char.toNat '\n' = 10 := rfl
  rcases List.mem_append.mp hm with hc | hc
  · have := doubleToChars_chars ht _ hc
    omega
  · rcases List.mem_cons.mp hc with he | hc
    · exact absurd he (by decide)
    · rcases List.mem_append.mp hc with hc | hc
      · have := doubleToChars_chars hf _ hc
        omega
      · rcases List.mem_cons.mp hc with he | hc
        · exact absurd he (by decide)
        · have := intToChars_chars d.midiNote _ hc
          omega

/-- Helper: the line reader recovers from one written line the detection with
its double fields rounded by the format. -/
theorem parseLine_serializeLine {d : Detection} (ht : fixedRegime d.timeSec)
    (hf : fixedRegime d.frequencyHz) :
    parseLine (serializeLine d) = some (roundDetection6 d) := by
  unfold serializeLine parseLine
  rw [splitSep_append (comma_not_mem_doubleToChars ht),
      splitSep_append (comma_not_mem_doubleToChars hf),
      splitSep_not_mem (comma_not_mem_intToChars d.midiNote)]
  dsimp only
  rw [parseDouble_doubleToChars _ ht, parseDouble_doubleToChars _ hf, parseInt_intToChars]
  rfl

/-- Helper: dropping the last element of a list with a nonempty tail keeps
the head. -/
theorem dropLast_cons_ne {α : Type} {x : α} {l : List α} (h : l ≠ []) :
    (x :: l).dropLast = x :: l.dropLast := by
  cases l with
  | nil => exact absurd rfl h
  | cons y ys => rfl

/-- Helper: reading back the whole written log yields the detections with
their double fields rounded by the format, in order. -/
theorem parseDetections_serialize_rounds (ds : List Detection)
    (h : ∀ d ∈ ds, fixedRegime d.timeSec ∧ fixedRegime d.frequencyHz) :
    parseDetections (serializeDetections ds) = some (ds.map roundDetection6) := by
  induction ds with
  | nil => rfl
  | cons d ds ih =>
    have hd := h d (by simp)
    have ih' := ih (fun x hx => h x (by simp [hx]))
    unfold parseDetections at ih' ⊢
    simp only [serializeDetections]
    rw [splitSep_append (newline_not_mem_serializeLine hd.1 hd.2)]
    rw [dropLast_cons_ne (splitSep_ne_nil _ _)]
    simp only [parseLines]
    rw [parseLine_serializeLine hd.1 hd.2, ih']
    simp only [List.map_cons]

/-- Helper: a map leaves a list unchanged exactly when it fixes every
element of the list. -/
theorem map_eq_self_iff_forall {α : Type} (f : α → α) (l : List α) :
    l.map f = l ↔ ∀ x ∈ l, f x = x := by
  induction l with
  | nil => simp
  | cons a l ih => simp [ih]

/-- Claim C9 (amended): with the log writer's lossy default precision-6
double formatting, re-reading the written log reproduces the number of
entries, their order and the integer note numbers exactly, and reproduces
each timestamp and frequency as its 6-significant-digit rounding (stated for
field values in the fixed-notation regime of the default format); the triples
round-trip exactly iff every timestamp and frequency is already unchanged by
that rounding. -/
theorem detectionLog_roundTrip :
    (∀ ds : List Detection,
      (∀ d ∈ ds, fixedRegime d.timeSec ∧ fixedRegime d.frequencyHz) →
      parseDetections (serializeDetections ds) = some (ds.map roundDetection6)) ∧
    (∀ ds : List Detection,
      (∀ d ∈ ds, fixedRegime d.timeSec ∧ fixedRegime d.frequencyHz) →
      (parseDetections (serializeDetections ds) = some ds ↔
        ∀ d ∈ ds, roundDetection6 d = d)) := by
  refine ⟨parseDetections_serialize_rounds, fun ds h => ?_⟩
  rw [parseDetections_serialize_rounds ds h, Option.some_inj]
  exact map_eq_self_iff_forall roundDetection6 ds

/-- Claim C9 counterexample: the lossy formatting breaks the exact round
trip.  The first window's center timestamp 4096/48000 = 32/375 = 0.085333...
is written as "0.0853333" (6 significant digits) and re-read as
853333/10000000, a different rational, so serializing and re-reading this
one-entry log does not reproduce the original triple. -/
theorem detectionLog_roundTrip_counterexample :
    parseDetections (serializeDetections
        [{ timeSec := 32/375, frequencyHz := 300, midiNote := 60 }])
      = some [{ timeSec := 853333/10000000, frequencyHz := 300, midiNote := 60 }] ∧
    ¬ parseDetections (serializeDetections
        [{ timeSec := 32/375, frequencyHz := 300, midiNote := 60 }])
      = some [{ timeSec := 32/375, frequencyHz := 300, midiNote := 60 }] := by
  have h := parseDetections_serialize_rounds
      [{ timeSec := 32/375, frequencyHz := 300, midiNote := 60 }]
      (by
        intro d hd
        rw [List.mem_singleton] at hd
        subst hd
        exact ⟨Or.inr (by norm_num), Or.inr (by norm_num)⟩)
  have hfd1 : fracDigits ((32 : ℚ)/375) = 7 := by norm_num [fracDigits]
  have hfd2 : fracDigits ((300 : ℚ)) = 3 := by norm_num [fracDigits]
  have hr1 : roundDefault6 ((32 : ℚ)/375) = 853333/10000000 := by
    unfold roundDefault6
    rw [if_neg (by norm_num), hfd1]
    have hrv : round ((32/375 : ℚ) * 10 ^ 7) = 853333 := by
      rw [round_eq]
      norm_num [Int.floor_eq_iff]
    rw [hrv]
    norm_num
  have hr2 : roundDefault6 ((300 : ℚ)) = 300 := by
    unfold roundDefault6
    rw [if_neg (by norm_num), hfd2]
    have hrv : round ((300 : ℚ) * 10 ^ 3) = 300000 := by
      rw [round_eq]
      norm_num [Int.floor_eq_iff]
    rw [hrv]
    norm_num
  constructor
  · rw [h]
    simp only [List.map_cons, List.map_nil, roundDetection6]
    rw [hr1, hr2]
  · intro hcontra
    rw [h] at hcontra
    simp only [roundDetection6, List.map_cons, List.map_nil, Option.some_inj,
      List.cons.injEq, Detection.mk.injEq, and_true] at hcontra
    rw [hr1] at hcontra
    norm_num at hcontra

/-- Witness for the amended C9 at a concrete one-entry log whose field values
are fixed points of the formatting, so the round trip is exact. -/
theorem detectionLog_roundTrip_witness :
    parseDetections (serializeDetections
        [{ timeSec := 0, frequencyHz := 0, midiNote := 55 }])
      = some [{ timeSec := 0, frequencyHz := 0, midiNote := 55 }] := by
  have h := detectionLog_roundTrip.1 [{ timeSec := 0, frequencyHz := 0, midiNote := 55 }]
      (by
        intro d hd
        rw [List.mem_singleton] at hd
        subst hd
        exact ⟨Or.inl rfl, Or.inl rfl⟩)
  simpa [roundDetection6, roundDefault6] using h
